import Mathlib

/-!
Shallow embedding of the pub/sub websocket pool of `src/websocket.py`
(classes `Websocket` and `WebsocketPool`), together with proofs of the
capacity, uniqueness, idempotence, consolidation, keepalive, sync and
reconnect properties stated in the specification.

Conventions used throughout:
* A topic is identified by its string key (`str(topic)`); topics are
  compared and deduplicated by this string form, so a `dict[str, Topic]`
  is modelled as a `Finset String` of its keys, and a `set[Topic]` as a
  `Finset String` (or a `List String` standing for one iteration order of
  the Python set, where the order of popping matters).
* The capacity constants `WS_TOPICS_LIMIT` and `MAX_WEBSOCKETS` live in
  `constants.py`, outside the sources at hand; every definition is
  parametrised over them (`LIMIT`, `MAXC`), with the reference
  configuration being `LIMIT = 50`, `MAXC = 8`.
* Wall-clock times (`time()`) are modelled as integers, and the ping
  constants `PING_INTERVAL`/`PING_TIMEOUT` as integer parameters.
-/

/-- A topic's string key (`str(topic)` in the source). -/
abbrev Topic := String

/-- The fields of one `Websocket` object that the pool reads and writes:
its topic dictionary (modelled by its key set), the set of topics already
submitted to the remote end, and the `_topics_changed` flag
(websocket.py lines 47, 51-52). -/
structure Conn where
  topics : Finset Topic
  submitted : Finset Topic
  topicsChanged : Bool
  deriving DecidableEq

/-- A freshly constructed `Websocket(self, i)`: empty topic dict, empty
submitted set, `_topics_changed` unset (websocket.py lines 44-52). -/
def newConn : Conn :=
  { topics := ∅, submitted := ∅, topicsChanged := false }

/-- The `WebsocketPool` state: its ordered connection list and the
`_running` flag (websocket.py lines 165-169). -/
structure Pool where
  websockets : List Conn
  running : Bool
  deriving DecidableEq

/-- `set(topics)` followed by
`topics_set.difference_update(*(ws.topics.values() for ws in self.websockets))`
(websocket.py lines 181-182): collapse duplicates, then drop every topic
already held by some connection.  The list argument stands for one
iteration order of the Python set. -/
def dedupTopics (conns : List Conn) (ts : List Topic) : List Topic :=
  ts.dedup.filter fun t => !conns.any fun c => decide (t ∈ c.topics)

/-- The inner `while topics_set and len(ws.topics) < WS_TOPICS_LIMIT`
loop of `add_topics` (websocket.py lines 194-196): pop topics off the
request list into the connection's map until the list is exhausted or the
map reaches `LIMIT` entries.  Returns the filled map and the leftover
request list. -/
def fillConn (LIMIT : ℕ) : List Topic → Finset Topic → Finset Topic × List Topic
  | [], m => (m, [])
  | t :: ts, m =>
    if m.card < LIMIT then fillConn LIMIT ts (insert t m)
    else (m, t :: ts)

/-- The `for i in range(MAX_WEBSOCKETS)` loop of `add_topics`
(websocket.py lines 184-198), with `fuel` the remaining indices.  The
connection at the current index is taken from the front of `conns` or
freshly created (`Websocket(self, i)`; `ws.start()` only launches the
handler task and touches none of the modelled fields).  After filling, the
connection's `_topics_changed` flag is set unconditionally (line 197).
Returns the final connection list and the topics left over when all
indices are used up; a non-empty leftover corresponds to
`raise MinerException("Maximum topics limit has been reached")` on
line 199. -/
def addLoop (LIMIT : ℕ) : ℕ → List Conn → List Topic → List Conn × List Topic
  | 0, conns, ts => (conns, ts)
  | fuel + 1, conns, ts =>
    let c := conns.headD newConn
    let rest := conns.tail
    let fill := fillConn LIMIT ts c.topics
    let c' := { c with topics := fill.1, topicsChanged := true }
    if fill.2.isEmpty then (c' :: rest, [])
    else
      let r := addLoop LIMIT fuel rest fill.2
      (c' :: r.1, r.2)

/-- `WebsocketPool.add_topics` (websocket.py lines 180-199).  Returns the
pool after the call together with the list of topics that could not be
placed: an empty second component is the successful return, a non-empty
one the `MinerException("Maximum topics limit has been reached")`
(`CapacityExceeded`) raise — note that on the failing path the
connections filled so far keep their new topics, exactly as the in-place
Python mutation does. -/
def add_topics (LIMIT MAXC : ℕ) (p : Pool) (ts : List Topic) : Pool × List Topic :=
  let ts' := dedupTopics p.websockets ts
  if ts'.isEmpty then (p, [])
  else
    let r := addLoop LIMIT MAXC p.websockets ts'
    ({ p with websockets := r.1 }, r.2)

/-- The deletion phase of `remove_topics` (websocket.py lines 202-208):
for each connection in order, intersect the remaining request set with its
keys; on a non-empty intersection delete those keys, set the connection's
`_topics_changed` flag, and drop the found keys from the request set
(`topics_set.difference_update(existing)`).  Returns the updated
connection list and the keys never found. -/
def removePhase (ks : Finset Topic) : List Conn → List Conn × Finset Topic
  | [] => ([], ks)
  | c :: rest =>
    let ex := ks ∩ c.topics
    if ex = ∅ then
      let r := removePhase ks rest
      (c :: r.1, r.2)
    else
      let r := removePhase (ks \ ex) rest
      ({ c with topics := c.topics \ ex, topicsChanged := true } :: r.1, r.2)

/-- Total subscribed-topic count,
`sum(len(ws.topics) for ws in self.websockets)` (websocket.py line 211). -/
def totalTopics (cs : List Conn) : ℕ :=
  (cs.map fun c => c.topics.card).sum

/-- One concrete enumeration of a topic map's values
(`ws.topics.values()`); the Python iteration order is arbitrary for the
properties at stake, so the keys are listed in sorted order. -/
def topicList (m : Finset Topic) : List Topic :=
  m.sort (· ≤ ·)

/-- The order in which `recycled_topics.extend(ws.topics.values())`
collects the topics of a run of popped connections: the connections are
popped from the end of the list, so the last one contributes first. -/
def recycleOf (dropped : List Conn) : List Topic :=
  ((dropped.reverse.map fun c => topicList c.topics)).flatten

/-- The consolidation `while` loop of `remove_topics` (websocket.py
lines 210-214): while the list is non-empty and the total topic count fits
in one connection fewer, pop the last connection, extend the recycled
list with its topics and record it as stopped
(`asyncio.create_task(ws.stop(remove=True))`).  Each iteration removes
one connection, so `cs.length` fuel is enough to run the loop to its exit
condition. -/
def consolidateFuel (LIMIT : ℕ) :
    ℕ → List Conn → List Topic → List Conn → List Conn × List Topic × List Conn
  | 0, cs, rec, stopped => (cs, rec, stopped)
  | fuel + 1, cs, rec, stopped =>
    match cs.getLast? with
    | none => (cs, rec, stopped)
    | some ws =>
      if totalTopics cs ≤ (cs.length - 1) * LIMIT then
        consolidateFuel LIMIT fuel cs.dropLast (rec ++ topicList ws.topics) (stopped ++ [ws])
      else (cs, rec, stopped)

/-- The consolidation loop run with enough fuel for its exit condition. -/
def consolidate (LIMIT : ℕ) (cs : List Conn) : List Conn × List Topic × List Conn :=
  consolidateFuel LIMIT cs.length cs [] []

/-- What a `remove_topics` call leaves behind: the pool, the recycled
topic list, the connections handed to detached `ws.stop(remove=True)`
tasks, and the argument of the detached `add_topics` task if one was
spawned (websocket.py lines 210-216). -/
structure RemoveResult where
  pool : Pool
  recycled : List Topic
  stopped : List Conn
  respawn : Option (List Topic)
  deriving DecidableEq

/-- `WebsocketPool.remove_topics` (websocket.py lines 201-216): the
deletion phase followed by the consolidation loop; if any topics were
recycled, a detached `add_topics(recycled_topics)` task is spawned
(lines 215-216), recorded in `respawn`. -/
def remove_topics (LIMIT : ℕ) (p : Pool) (ks : Finset Topic) : RemoveResult :=
  let cs := (removePhase ks p.websockets).1
  let r := consolidate LIMIT cs
  { pool := { p with websockets := r.1 }
    recycled := r.2.1
    stopped := r.2.2
    respawn := if r.2.1.isEmpty then none else some r.2.1 }

/-- Pool states reachable from a fresh `WebsocketPool` (whose connection
list starts empty, websocket.py line 169) by any sequence of `add_topics`
and `remove_topics` calls.  A failing `add_topics` call still transitions
to the state its in-place mutations produced, and the detached
re-submission spawned by `remove_topics` is itself an `add_topics` step. -/
inductive Reachable (LIMIT MAXC : ℕ) : Pool → Prop
  | init (running : Bool) : Reachable LIMIT MAXC ⟨[], running⟩
  | add (ts : List Topic) {p : Pool} :
      Reachable LIMIT MAXC p → Reachable LIMIT MAXC (add_topics LIMIT MAXC p ts).1
  | remove (ks : Finset Topic) {p : Pool} :
      Reachable LIMIT MAXC p → Reachable LIMIT MAXC (remove_topics LIMIT p ks).pool

/-! ## The per-connection state machine (`Websocket`) -/

/-- The mutable per-connection state the handler loop of a `Websocket`
works with (websocket.py lines 44-52): the topic dictionary (key set),
the `_submitted` set, the `_topics_changed`, `_reconnect_requested` and
`_closed` events, the keepalive timestamps `_next_ping`/`_max_pong`, and
the shared single-slot transport value `_ws` (`AwaitableValue`), holding
at most one live transport, identified here by a number. -/
structure ConnState where
  topics : Finset Topic
  submitted : Finset Topic
  topicsChanged : Bool
  reconnectRequested : Bool
  closed : Bool
  nextPing : ℤ
  maxPong : ℤ
  ws : Option ℕ
  deriving DecidableEq

/-- `Websocket.request_reconnect` (websocket.py lines 60-62):
`self._next_ping = time()` then `self._reconnect_requested.set()`. -/
def request_reconnect (now : ℤ) (s : ConnState) : ConnState :=
  { s with nextPing := now, reconnectRequested := true }

/-- A message payload as assembled by the handlers, before `Websocket.send`
tags it (the `{"type": ..., "data": ...}` dictionaries of websocket.py
lines 124, 135, 138).  Topic lists are modelled by their key sets. -/
inductive PreMsg where
  | ping : PreMsg
  | listen (topics : Finset Topic) (auth : String) : PreMsg
  | unlisten (topics : Finset Topic) (auth : String) : PreMsg
  deriving DecidableEq

/-- A message as it goes out on the wire after `Websocket.send`. -/
inductive OutMsg where
  | ping : OutMsg
  | listen (topics : Finset Topic) (nonce : ℕ) (auth : String) : OutMsg
  | unlisten (topics : Finset Topic) (nonce : ℕ) (auth : String) : OutMsg
  deriving DecidableEq

/-- `Websocket.send` (websocket.py lines 159-163): every message whose
type is not PING gets `message["nonce"] = create_nonce(CHARS_ASCII, 30)`
attached; `nonce` is the value drawn from the nonce source for this call
(`create_nonce` is not invoked for a PING). -/
def send (nonce : ℕ) : PreMsg → OutMsg
  | .ping => .ping
  | .listen ts a => .listen ts nonce a
  | .unlisten ts a => .unlisten ts nonce a

/-- `Websocket._handle_ping` (websocket.py lines 119-126) at wall-clock
time `now`, with `PI`/`PT` the seconds of `PING_INTERVAL`/`PING_TIMEOUT`:
if the next scheduled ping has been reached, schedule the next one
`PI` ahead, move the pong deadline `PT` ahead of `now` and send a PING;
otherwise, if the pong deadline has been reached, request a reconnect.
Returns the new state and the payload handed to `self.send`, if any. -/
def handle_ping (PI PT : ℤ) (now : ℤ) (s : ConnState) : ConnState × Option PreMsg :=
  if s.nextPing ≤ now then
    ({ s with nextPing := now + PI, maxPong := now + PT }, some PreMsg.ping)
  else if s.maxPong ≤ now then
    (request_reconnect now s, none)
  else (s, none)

/-- `Websocket._handle_topics` (websocket.py lines 128-139) with the
current bearer credential `auth` (`auth_state.access_token`) and the two
nonces `n1`, `n2` that `create_nonce` would produce for the two possible
sends of this call.  If `_topics_changed` is not set, nothing happens;
otherwise the flag is cleared, an UNLISTEN for `submitted - current` is
sent when that difference is non-empty, then a LISTEN for
`current - submitted` likewise, and `_submitted` is updated accordingly.
(`self.set_status(refresh_topics=True)` only updates the display.)
Returns the new state and the sent messages in order. -/
def handle_topics (auth : String) (n1 n2 : ℕ) (s : ConnState) : ConnState × List OutMsg :=
  if s.topicsChanged = false then (s, [])
  else
    let s0 := { s with topicsChanged := false }
    let current := s0.topics
    let removed := s0.submitted \ current
    let s1 := if removed = ∅ then s0 else { s0 with submitted := s0.submitted \ removed }
    let out1 : List OutMsg :=
      if removed = ∅ then [] else [send n1 (PreMsg.unlisten removed auth)]
    let added := current \ s1.submitted
    let s2 := if added = ∅ then s1 else { s1 with submitted := s1.submitted ∪ added }
    let out2 : List OutMsg :=
      if added = ∅ then [] else [send n2 (PreMsg.listen added auth)]
    (s2, out1 ++ out2)

/-- A JSON value, as far as the receive handler inspects one: an object
(a dictionary with unique keys, modelled as an association list looked up
by first occurrence), a string, or any other JSON value (whose precise
shape the handler never examines). -/
inductive Json where
  | obj (fields : List (String × Json)) : Json
  | str (s : String) : Json
  | other : Json

/-- `dict.get(key)` on a decoded JSON object. -/
def lookupField : List (String × Json) → String → Option Json
  | [], _ => none
  | (k', v) :: rest, k => if k' = k then some v else lookupField rest k

/-- One outcome of `await ws.receive(timeout=1.0)` (websocket.py
line 144): a TEXT frame carrying raw data, one of the four close-like
frame types of line 154, any other frame type (BINARY and friends, which
fall through both branches), or the `asyncio.TimeoutError` raised when
nothing arrived within the 1 second poll. -/
inductive Frame where
  | text (raw : String) : Frame
  | close : Frame
  | closed : Frame
  | closing : Frame
  | err : Frame
  | other : Frame
  | timeout : Frame
  deriving DecidableEq

/-- The ways `Websocket._handle_recv` can raise (exceptions that escape
the handler, since only `asyncio.TimeoutError` is caught there). -/
inductive RecvErr where
  /-- `json.loads` raised on data that is not valid JSON. -/
  | decodeError : RecvErr
  /-- `.get` called on a decoded value that is not a dictionary. -/
  | attrError : RecvErr
  /-- a `message["data"]`-style lookup found no such key. -/
  | keyError : RecvErr
  /-- indexing a non-dictionary, hashing an unhashable key, or `json.loads`
  applied to a non-string payload. -/
  | typeError : RecvErr
  /-- `WebsocketClosed(received=True)` on a close-like frame. -/
  | websocketClosed : RecvErr
  deriving DecidableEq

/-- `Websocket._handle_recv` (websocket.py lines 141-157), parametrised
over the external decoder `loads` (Python's `json.loads`; `none` models
an input it raises on).  On a TEXT frame the payload is decoded — a
failure propagates, nothing catches it — and dispatched on its `type`
field: MESSAGE spawns the subscribed topic's handler task with the
twice-decoded inner payload, PONG sets `_max_pong = _next_ping`,
RECONNECT calls `request_reconnect`, anything else falls through.
Close-like frames raise `WebsocketClosed`; a receive timeout is caught
and ignored.  Returns the new state and the spawned handler tasks
(topic key with its decoded payload). -/
def handle_recv (loads : String → Option Json) (now : ℤ) (s : ConnState) :
    Frame → Except RecvErr (ConnState × List (Topic × Json))
  | .timeout => .ok (s, [])
  | .close => .error .websocketClosed
  | .closed => .error .websocketClosed
  | .closing => .error .websocketClosed
  | .err => .error .websocketClosed
  | .other => .ok (s, [])
  | .text raw =>
    match loads raw with
    | none => .error .decodeError
    | some (Json.str _) => .error .attrError
    | some Json.other => .error .attrError
    | some (Json.obj fields) =>
      match lookupField fields "type" with
      | some (Json.str ty) =>
        if ty = "MESSAGE" then
          match lookupField fields "data" with
          | none => .error .keyError
          | some (Json.str _) => .error .typeError
          | some Json.other => .error .typeError
          | some (Json.obj dfields) =>
            match lookupField dfields "topic" with
            | none => .error .keyError
            | some (Json.obj _) => .error .typeError
            | some Json.other => .ok (s, [])
            | some (Json.str topicKey) =>
              if topicKey ∈ s.topics then
                match lookupField dfields "message" with
                | none => .error .keyError
                | some (Json.str inner) =>
                  match loads inner with
                  | none => .error .decodeError
                  | some payload => .ok (s, [(topicKey, payload)])
                | some _ => .error .typeError
              else .ok (s, [])
        else if ty = "PONG" then
          .ok ({ s with maxPong := s.nextPing }, [])
        else if ty = "RECONNECT" then
          .ok (request_reconnect now s, [])
        else .ok (s, [])
      | _ => .ok (s, [])

/-- The `finally:` block that runs on every exit of the inner
`while not self._reconnect_requested.is_set()` loop of `Websocket._handle`
(websocket.py lines 114-116): `self._ws.clear()` empties the shared
transport slot and `self._submitted.clear()` empties the submitted set.
The topic dictionary is untouched. -/
def innerLoopExit (s : ConnState) : ConnState :=
  { s with ws := none, submitted := ∅ }

/-- The head of each iteration of the outer `async for websocket in
self._backoff_connect(...)` loop of `Websocket._handle` (websocket.py
lines 102-104): publish the fresh transport into the shared slot, clear
`_reconnect_requested`, and set `_topics_changed` so the first sync
re-submits the full topic set. -/
def publishTransport (w : ℕ) (s : ConnState) : ConnState :=
  { s with ws := some w, reconnectRequested := false, topicsChanged := true }

/-- One turn of the outer loop of `Websocket._handle` as seen from the
shared state: the inner loop exits (running its `finally:` block) and the
next transport `w` is then published into the — by then empty — slot. -/
def outerIteration (w : ℕ) (s : ConnState) : ConnState :=
  publishTransport w (innerLoopExit s)

/-- `json.loads` on inputs that are not valid JSON: no decoded value
(Python raises `json.JSONDecodeError`). -/
def loadsFail : String → Option Json := fun _ => none

/-- The pool-wide uniqueness invariant: the key sets of any two distinct
connections in the list are disjoint. -/
abbrev pairwiseDisjoint (cs : List Conn) : Prop :=
  cs.Pairwise fun a b => Disjoint a.topics b.topics

/-! ## Helper lemmas about `fillConn` -/

/-- Filling a connection never pushes its topic count above `LIMIT`. -/
theorem fillConn_card (LIMIT : ℕ) :
    ∀ (ts : List Topic) (m : Finset Topic), m.card ≤ LIMIT →
      (fillConn LIMIT ts m).1.card ≤ LIMIT := by
  intro ts
  induction ts with
  | nil => intro m h; simpa [fillConn] using h
  | cons t ts ih =>
    intro m h
    by_cases hlt : m.card < LIMIT
    · have hin : (insert t m).card ≤ LIMIT := by
        have := Finset.card_insert_le t m
        omega
      simpa [fillConn, hlt] using ih (insert t m) hin
    · simpa [fillConn, hlt] using h

/-- The leftover request list is a tail segment of the input, and every
topic of the filled map comes from the original map or from the consumed
front segment. -/
theorem fillConn_split (LIMIT : ℕ) :
    ∀ (ts : List Topic) (m : Finset Topic),
      ∃ pre, ts = pre ++ (fillConn LIMIT ts m).2 ∧
        ∀ x ∈ (fillConn LIMIT ts m).1, x ∈ m ∨ x ∈ pre := by
  intro ts
  induction ts with
  | nil =>
    intro m
    exact ⟨[], by simp [fillConn], fun x hx => Or.inl (by simpa [fillConn] using hx)⟩
  | cons t ts ih =>
    intro m
    by_cases hlt : m.card < LIMIT
    · obtain ⟨pre, hpre, hmem⟩ := ih (insert t m)
      refine ⟨t :: pre, ?_, ?_⟩
      · simpa [fillConn, hlt] using hpre
      · intro x hx
        rcases hmem x (by simpa [fillConn, hlt] using hx) with h | h
        · rcases Finset.mem_insert.mp h with h | h
          · exact Or.inr (by simp [h])
          · exact Or.inl h
        · exact Or.inr (by simp [h])
    · exact ⟨[], by simp [fillConn, hlt],
        fun x hx => Or.inl (by simpa [fillConn, hlt] using hx)⟩

/-- Exact accounting for filling with fresh, pairwise-distinct topics:
the map grows to `min (|m| + |ts|) LIMIT` entries, and
`|m| + |ts| - LIMIT` topics are left over. -/
theorem fillConn_exact (LIMIT : ℕ) :
    ∀ (ts : List Topic) (m : Finset Topic), ts.Nodup → (∀ t ∈ ts, t ∉ m) →
      m.card ≤ LIMIT →
      (fillConn LIMIT ts m).1.card = min (m.card + ts.length) LIMIT ∧
      (fillConn LIMIT ts m).2.length = m.card + ts.length - LIMIT := by
  intro ts
  induction ts with
  | nil =>
    intro m _ _ hcap
    constructor <;> simp [fillConn] <;> omega
  | cons t ts ih =>
    intro m hnd hfresh hcap
    by_cases hlt : m.card < LIMIT
    · have htm : t ∉ m := hfresh t (by simp)
      have hcard : (insert t m).card = m.card + 1 := Finset.card_insert_of_not_mem htm
      have hfresh' : ∀ x ∈ ts, x ∉ insert t m := by
        intro x hx
        have hxt : x ≠ t := by
          intro h; subst h; exact (List.nodup_cons.mp hnd).1 hx
        have hxm := hfresh x (by simp [hx])
        simp [Finset.mem_insert, hxt, hxm]
      have hcap' : (insert t m).card ≤ LIMIT := by omega
      obtain ⟨h1, h2⟩ := ih (insert t m) (List.nodup_cons.mp hnd).2 hfresh' hcap'
      rw [hcard] at h1 h2
      have hu : fillConn LIMIT (t :: ts) m = fillConn LIMIT ts (insert t m) := by
        simp [fillConn, hlt]
      rw [hu]
      constructor
      · rw [h1]; simp only [List.length_cons]; omega
      · rw [h2]; simp only [List.length_cons]; omega
    · have hu : fillConn LIMIT (t :: ts) m = (m, t :: ts) := by
        simp [fillConn, hlt]
      rw [hu]
      constructor
      · simp only [List.length_cons]; omega
      · simp only [List.length_cons]; omega

/-! ## Helper lemmas about `dedupTopics` -/

/-- The deduplicated request list has no repeats (it models a set). -/
theorem dedupTopics_nodup (conns : List Conn) (ts : List Topic) :
    (dedupTopics conns ts).Nodup :=
  (List.nodup_dedup ts).filter _

/-- Nothing in the deduplicated request list is held by any connection. -/
theorem dedupTopics_fresh (conns : List Conn) (ts : List Topic) :
    ∀ t ∈ dedupTopics conns ts, ∀ c ∈ conns, t ∉ c.topics := by
  intro t ht c hc
  have h := (List.mem_filter.mp ht).2
  simp only [List.any_eq_true, decide_eq_true_eq, Bool.not_eq_true',
    List.any_eq_false, decide_eq_false_iff_not] at h
  exact h c hc

/-! ## Helper lemmas about `addLoop` -/

/-- Unfolding of one `add_topics` loop iteration that places the rest of
the request list. -/
theorem addLoop_succ_done (LIMIT fuel : ℕ) (conns : List Conn) (ts : List Topic)
    (h : (fillConn LIMIT ts (conns.headD newConn).topics).2.isEmpty = true) :
    addLoop LIMIT (fuel + 1) conns ts =
      ({ conns.headD newConn with
          topics := (fillConn LIMIT ts (conns.headD newConn).topics).1,
          topicsChanged := true } :: conns.tail, []) := by
  simp only [addLoop]
  rw [if_pos h]

/-- Unfolding of one `add_topics` loop iteration that leaves topics over
for the following indices. -/
theorem addLoop_succ_more (LIMIT fuel : ℕ) (conns : List Conn) (ts : List Topic)
    (h : (fillConn LIMIT ts (conns.headD newConn).topics).2.isEmpty = false) :
    addLoop LIMIT (fuel + 1) conns ts =
      ({ conns.headD newConn with
          topics := (fillConn LIMIT ts (conns.headD newConn).topics).1,
          topicsChanged := true } ::
        (addLoop LIMIT fuel conns.tail
          (fillConn LIMIT ts (conns.headD newConn).topics).2).1,
       (addLoop LIMIT fuel conns.tail
          (fillConn LIMIT ts (conns.headD newConn).topics).2).2) := by
  simp only [addLoop]
  rw [if_neg (by rw [h]; exact Bool.false_ne_true)]

/-- The assignment loop never pushes any connection past `LIMIT` topics. -/
theorem addLoop_cap (LIMIT : ℕ) :
    ∀ (fuel : ℕ) (conns : List Conn) (ts : List Topic),
      (∀ c ∈ conns, c.topics.card ≤ LIMIT) →
      ∀ c ∈ (addLoop LIMIT fuel conns ts).1, c.topics.card ≤ LIMIT := by
  intro fuel
  induction fuel with
  | zero => intro conns ts h; simpa [addLoop] using h
  | succ fuel ih =>
    intro conns ts h
    have hhead : (conns.headD newConn).topics.card ≤ LIMIT := by
      cases conns with
      | nil => simp [newConn]
      | cons c rest => exact h c (by simp)
    have htail : ∀ c ∈ conns.tail, c.topics.card ≤ LIMIT := by
      cases conns with
      | nil => simp
      | cons c rest => intro d hd; exact h d (List.mem_cons_of_mem c hd)
    have hfill := fillConn_card LIMIT ts (conns.headD newConn).topics hhead
    by_cases he : (fillConn LIMIT ts (conns.headD newConn).topics).2.isEmpty
    · rw [addLoop_succ_done LIMIT fuel conns ts he]
      intro c hc
      rcases List.mem_cons.mp hc with h' | h'
      · subst h'; exact hfill
      · exact htail c h'
    · rw [addLoop_succ_more LIMIT fuel conns ts (by simpa using he)]
      intro c hc
      rcases List.mem_cons.mp hc with h' | h'
      · subst h'; exact hfill
      · exact ih conns.tail _ htail c h'

/-- Assigning deduplicated, fresh topics preserves the pool-wide
uniqueness invariant; moreover every topic in the resulting connections
was either already held by some input connection or part of the request
list. -/
theorem addLoop_disjoint (LIMIT : ℕ) :
    ∀ (fuel : ℕ) (conns : List Conn) (ts : List Topic),
      ts.Nodup →
      (∀ t ∈ ts, ∀ c ∈ conns, t ∉ c.topics) →
      pairwiseDisjoint conns →
      pairwiseDisjoint (addLoop LIMIT fuel conns ts).1 ∧
      (∀ c ∈ (addLoop LIMIT fuel conns ts).1, ∀ x ∈ c.topics,
          (∃ d ∈ conns, x ∈ d.topics) ∨ x ∈ ts) := by
  intro fuel
  induction fuel with
  | zero =>
    intro conns ts _ _ hdisj
    refine ⟨by simpa [addLoop] using hdisj, ?_⟩
    intro c hc x hx
    exact Or.inl ⟨c, by simpa [addLoop] using hc, hx⟩
  | succ fuel ih =>
    intro conns ts hnd hfresh hdisj
    obtain ⟨pre, hpre, hmem⟩ := fillConn_split LIMIT ts (conns.headD newConn).topics
    have hheadmem : ∀ x ∈ (conns.headD newConn).topics, ∃ d ∈ conns, x ∈ d.topics := by
      cases conns with
      | nil => intro x hx; exact absurd hx (by simp [newConn])
      | cons c rest => intro x hx; exact ⟨c, by simp, hx⟩
    have htailmem : ∀ d ∈ conns.tail, d ∈ conns := by
      cases conns with
      | nil => intro d hd; exact absurd hd (by simp)
      | cons c rest => intro d hd; exact List.mem_cons_of_mem c hd
    have hheaddisj : ∀ d ∈ conns.tail, Disjoint (conns.headD newConn).topics d.topics := by
      cases conns with
      | nil => intro d hd; exact absurd hd (by simp)
      | cons c rest => exact (List.pairwise_cons.mp hdisj).1
    have htaildisj : pairwiseDisjoint conns.tail := by
      cases conns with
      | nil => exact List.Pairwise.nil
      | cons c rest => exact (List.pairwise_cons.mp hdisj).2
    have hheadfresh : ∀ x ∈ ts, x ∉ (conns.headD newConn).topics := by
      cases conns with
      | nil => intro x _; simp [newConn]
      | cons c rest => intro x hx; exact hfresh x hx c (by simp)
    have hpresub : ∀ x ∈ pre, x ∈ ts := by
      intro x hx; rw [hpre]; exact List.mem_append_left _ hx
    have hleftsub : ∀ x ∈ (fillConn LIMIT ts (conns.headD newConn).topics).2, x ∈ ts := by
      intro x hx; rw [hpre]; exact List.mem_append_right _ hx
    have hpredisj : ∀ x ∈ pre, x ∉ (fillConn LIMIT ts (conns.headD newConn).topics).2 := by
      have hh : (pre ++ (fillConn LIMIT ts (conns.headD newConn).topics).2).Nodup :=
        hpre ▸ hnd
      exact (List.nodup_append.mp hh).2.2
    have htailfresh : ∀ t ∈ (fillConn LIMIT ts (conns.headD newConn).topics).2,
        ∀ d ∈ conns.tail, t ∉ d.topics := by
      intro t ht d hd; exact hfresh t (hleftsub t ht) d (htailmem d hd)
    by_cases he : (fillConn LIMIT ts (conns.headD newConn).topics).2.isEmpty
    · rw [addLoop_succ_done LIMIT fuel conns ts he]
      constructor
      · refine List.pairwise_cons.mpr ⟨?_, htaildisj⟩
        intro d hd
        rw [Finset.disjoint_left]
        intro x hx hxd
        rcases hmem x hx with hO | hP
        · exact (Finset.disjoint_left.mp (hheaddisj d hd)) hO hxd
        · exact hfresh x (hpresub x hP) d (htailmem d hd) hxd
      · intro c hc x hx
        rcases List.mem_cons.mp hc with rfl | hc'
        · rcases hmem x hx with hO | hP
          · exact Or.inl (hheadmem x hO)
          · exact Or.inr (hpresub x hP)
        · exact Or.inl ⟨c, htailmem c hc', hx⟩
    · rw [addLoop_succ_more LIMIT fuel conns ts (by simpa using he)]
      have hnd' : (fillConn LIMIT ts (conns.headD newConn).topics).2.Nodup :=
        (List.nodup_append.mp (hpre ▸ hnd)).2.1
      obtain ⟨ihP, ihB⟩ := ih conns.tail _ hnd' htailfresh htaildisj
      constructor
      · refine List.pairwise_cons.mpr ⟨?_, ihP⟩
        intro d' hd'
        rw [Finset.disjoint_left]
        intro x hx hxd'
        rcases ihB d' hd' x hxd' with ⟨d, hd, hxd⟩ | hxl
        · rcases hmem x hx with hO | hP
          · exact (Finset.disjoint_left.mp (hheaddisj d hd)) hO hxd
          · exact hfresh x (hpresub x hP) d (htailmem d hd) hxd
        · rcases hmem x hx with hO | hP
          · exact hheadfresh x (hleftsub x hxl) hO
          · exact hpredisj x hP hxl
      · intro c hc x hx
        rcases List.mem_cons.mp hc with rfl | hc'
        · rcases hmem x hx with hO | hP
          · exact Or.inl (hheadmem x hO)
          · exact Or.inr (hpresub x hP)
        · rcases ihB c hc' x hx with ⟨d, hd, hxd⟩ | hxl
          · exact Or.inl ⟨d, htailmem d hd, hxd⟩
          · exact Or.inr (hleftsub x hxl)

/-- Exact accounting for the assignment loop when every connection at
hand is empty (in particular for a fresh pool): `ts.length - fuel * LIMIT`
request topics are left over, and an exact fill
(`ts.length = fuel * LIMIT` with `0 < LIMIT`) produces exactly `fuel`
connections, each holding exactly `LIMIT` topics. -/
theorem addLoop_allEmpty (LIMIT : ℕ) :
    ∀ (fuel : ℕ) (conns : List Conn) (ts : List Topic),
      ts.Nodup → (∀ c ∈ conns, c.topics = ∅) → conns.length ≤ fuel → ts ≠ [] →
      (addLoop LIMIT fuel conns ts).2.length = ts.length - fuel * LIMIT ∧
      (ts.length = fuel * LIMIT → 0 < LIMIT →
        (addLoop LIMIT fuel conns ts).1.length = fuel ∧
        ∀ c ∈ (addLoop LIMIT fuel conns ts).1, c.topics.card = LIMIT) := by
  intro fuel
  induction fuel with
  | zero =>
    intro conns ts _ _ hlen hne
    have hc : conns = [] := List.eq_nil_of_length_eq_zero (Nat.le_zero.mp hlen)
    subst hc
    constructor
    · simp [addLoop]
    · intro hlen0 _
      exact absurd (List.eq_nil_of_length_eq_zero (by simpa using hlen0)) hne
  | succ fuel ih =>
    intro conns ts hnd hempty hlen hne
    have hhead : (conns.headD newConn).topics = ∅ := by
      cases conns with
      | nil => simp [newConn]
      | cons c rest => exact hempty c (by simp)
    have hfr : ∀ t ∈ ts, t ∉ (conns.headD newConn).topics := by
      intro t _; rw [hhead]; exact Finset.not_mem_empty t
    have hcap0 : (conns.headD newConn).topics.card ≤ LIMIT := by
      rw [hhead]; simp
    obtain ⟨hcard, hlen2⟩ := fillConn_exact LIMIT ts (conns.headD newConn).topics hnd hfr hcap0
    have hc0 : (conns.headD newConn).topics.card = 0 := by rw [hhead]; simp
    rw [hc0] at hcard hlen2
    simp only [Nat.zero_add] at hcard hlen2
    have htail : ∀ c ∈ conns.tail, c.topics = ∅ := by
      cases conns with
      | nil => simp
      | cons c rest => intro d hd; exact hempty d (List.mem_cons_of_mem c hd)
    have htlen : conns.tail.length ≤ fuel := by
      cases conns with
      | nil => simp
      | cons c rest =>
        simp only [List.length_cons] at hlen
        simp only [List.tail_cons]
        omega
    by_cases he : (fillConn LIMIT ts (conns.headD newConn).topics).2.isEmpty
    · have hfe : (fillConn LIMIT ts (conns.headD newConn).topics).2 = [] :=
        List.isEmpty_iff.mp he
      have hlts : ts.length ≤ LIMIT := by
        rw [hfe] at hlen2; simp at hlen2; omega
      rw [addLoop_succ_done LIMIT fuel conns ts he]
      constructor
      · rw [Nat.succ_mul]; simp; omega
      · intro hlen0 hpos
        rw [Nat.succ_mul] at hlen0
        have hfuel : fuel * LIMIT = 0 := by omega
        have hfuel0 : fuel = 0 := by
          rcases Nat.mul_eq_zero.mp hfuel with h | h
          · exact h
          · omega
        subst hfuel0
        have htl : conns.tail = [] := by
          cases conns with
          | nil => rfl
          | cons c rest =>
            simp only [List.length_cons] at hlen
            simp only [List.tail_cons]
            exact List.length_eq_zero.mp (by omega)
        constructor
        · simp [htl]
        · intro c hc
          rw [htl] at hc
          rcases List.mem_cons.mp hc with rfl | hc'
          · show (fillConn LIMIT ts (conns.headD newConn).topics).1.card = LIMIT
            rw [hcard]
            omega
          · exact absurd hc' (by simp)
    · have hfne : (fillConn LIMIT ts (conns.headD newConn).topics).2 ≠ [] := by
        intro hnil
        rw [← List.isEmpty_iff] at hnil
        exact absurd hnil (by simpa using he)
      obtain ⟨pre, hpre, _⟩ := fillConn_split LIMIT ts (conns.headD newConn).topics
      have hnd' : (fillConn LIMIT ts (conns.headD newConn).topics).2.Nodup :=
        (List.nodup_append.mp (hpre ▸ hnd)).2.1
      obtain ⟨ihL, ihB⟩ := ih conns.tail _ hnd' htail htlen hfne
      rw [addLoop_succ_more LIMIT fuel conns ts (by simpa using he)]
      constructor
      · rw [Nat.succ_mul]
        simp only []
        omega
      · intro hlen0 hpos
        rw [Nat.succ_mul] at hlen0
        have hflen : (fillConn LIMIT ts (conns.headD newConn).topics).2.length
            = fuel * LIMIT := by omega
        obtain ⟨ih1, ih2⟩ := ihB hflen hpos
        constructor
        · simp only [List.length_cons]
          omega
        · intro c hc
          rcases List.mem_cons.mp hc with rfl | hc'
          · show (fillConn LIMIT ts (conns.headD newConn).topics).1.card = LIMIT
            rw [hcard]
            omega
          · exact ih2 c hc'

/-! ## Helper lemmas about `removePhase` and the consolidation loop -/

/-- Unfolding of the deletion phase when the head connection holds none
of the requested keys. -/
theorem removePhase_cons_none (ks : Finset Topic) (c : Conn) (rest : List Conn)
    (h : ks ∩ c.topics = ∅) :
    removePhase ks (c :: rest) =
      (c :: (removePhase ks rest).1, (removePhase ks rest).2) := by
  simp [removePhase, h]

/-- Unfolding of the deletion phase when the head connection holds some
of the requested keys. -/
theorem removePhase_cons_some (ks : Finset Topic) (c : Conn) (rest : List Conn)
    (h : ¬ks ∩ c.topics = ∅) :
    removePhase ks (c :: rest) =
      ({ c with topics := c.topics \ (ks ∩ c.topics), topicsChanged := true } ::
         (removePhase (ks \ (ks ∩ c.topics)) rest).1,
       (removePhase (ks \ (ks ∩ c.topics)) rest).2) := by
  simp [removePhase, h]

/-- The deletion phase only ever shrinks each connection's topic map,
connection by connection. -/
theorem removePhase_forall₂ :
    ∀ (conns : List Conn) (ks : Finset Topic),
      List.Forall₂ (fun c c' => c'.topics ⊆ c.topics) conns (removePhase ks conns).1 := by
  intro conns
  induction conns with
  | nil => intro ks; simp [removePhase]
  | cons c rest ih =>
    intro ks
    by_cases hex : ks ∩ c.topics = ∅
    · rw [removePhase_cons_none ks c rest hex]
      exact List.Forall₂.cons (Finset.Subset.refl c.topics) (ih ks)
    · rw [removePhase_cons_some ks c rest hex]
      exact List.Forall₂.cons Finset.sdiff_subset (ih (ks \ (ks ∩ c.topics)))

/-- Every connection on the right of the shrink relation comes from one
on the left. -/
theorem forall₂_mem_right :
    ∀ {l l' : List Conn},
      List.Forall₂ (fun c c' => c'.topics ⊆ c.topics) l l' →
      ∀ c' ∈ l', ∃ c ∈ l, c'.topics ⊆ c.topics := by
  intro l l' h
  induction h with
  | nil => simp
  | cons hR hTail ih =>
    intro c' hc'
    rcases List.mem_cons.mp hc' with rfl | hc'
    · exact ⟨_, by simp, hR⟩
    · obtain ⟨c, hc, hsub⟩ := ih c' hc'
      exact ⟨c, List.mem_cons_of_mem _ hc, hsub⟩

/-- Shrinking every connection's topic map preserves pool-wide
disjointness. -/
theorem pairwise_of_forall₂ :
    ∀ {l l' : List Conn},
      List.Forall₂ (fun c c' => c'.topics ⊆ c.topics) l l' →
      pairwiseDisjoint l → pairwiseDisjoint l' := by
  intro l l' h
  induction h with
  | nil => intro _; exact List.Pairwise.nil
  | cons hR hTail ih =>
    intro hp
    rcases List.pairwise_cons.mp hp with ⟨hhead, htl⟩
    refine List.pairwise_cons.mpr ⟨?_, ih htl⟩
    intro b' hb'
    obtain ⟨c, hc, hsub⟩ := forall₂_mem_right hTail b' hb'
    exact Disjoint.mono hR hsub (hhead c hc)

/-- Shrinking every connection's topic map preserves the per-connection
capacity bound. -/
theorem forall₂_card_le (LIMIT : ℕ) :
    ∀ {l l' : List Conn},
      List.Forall₂ (fun c c' => c'.topics ⊆ c.topics) l l' →
      (∀ c ∈ l, c.topics.card ≤ LIMIT) → ∀ c' ∈ l', c'.topics.card ≤ LIMIT := by
  intro l l' h hcap c' hc'
  obtain ⟨c, hc, hsub⟩ := forall₂_mem_right h c' hc'
  exact le_trans (Finset.card_le_card hsub) (hcap c hc)

/-- The connections surviving consolidation form a sublist of the input
(only tail connections are ever dropped, none is altered). -/
theorem consolidateFuel_sublist (LIMIT : ℕ) :
    ∀ (fuel : ℕ) (cs : List Conn) (rec : List Topic) (stopped : List Conn),
      (consolidateFuel LIMIT fuel cs rec stopped).1.Sublist cs := by
  intro fuel
  induction fuel with
  | zero => intro cs rec stopped; simp [consolidateFuel]
  | succ fuel ih =>
    intro cs rec stopped
    cases hlast : cs.getLast? with
    | none => simp [consolidateFuel, hlast]
    | some ws =>
      by_cases hcond : totalTopics cs ≤ (cs.length - 1) * LIMIT
      · have hu : consolidateFuel LIMIT (fuel + 1) cs rec stopped =
            consolidateFuel LIMIT fuel cs.dropLast
              (rec ++ topicList ws.topics) (stopped ++ [ws]) := by
          simp [consolidateFuel, hlast, hcond]
        rw [hu]
        exact (ih _ _ _).trans (List.dropLast_sublist cs)
      · simp [consolidateFuel, hlast, hcond]

/-- Splitting recycled collection across a final connection. -/
theorem recycleOf_concat (xs : List Conn) (b : Conn) :
    recycleOf (xs ++ [b]) = topicList b.topics ++ recycleOf xs := by
  simp [recycleOf]

/-- Full characterisation of the consolidation loop (with enough fuel):
the result keeps exactly the first `k` connections for some `k`, recycles
and stops the dropped tail (last connection first), the loop condition
fails at the final list, and it held at every intermediate length. -/
theorem consolidateFuel_spec (LIMIT : ℕ) :
    ∀ (fuel : ℕ) (cs : List Conn) (rec : List Topic) (stopped : List Conn),
      cs.length ≤ fuel →
      ∃ k, k ≤ cs.length ∧
        consolidateFuel LIMIT fuel cs rec stopped
          = (cs.take k, rec ++ recycleOf (cs.drop k), stopped ++ (cs.drop k).reverse) ∧
        (cs.take k = [] ∨ (k - 1) * LIMIT < totalTopics (cs.take k)) ∧
        (∀ j, k < j → j ≤ cs.length → totalTopics (cs.take j) ≤ (j - 1) * LIMIT) := by
  intro fuel
  induction fuel with
  | zero =>
    intro cs rec stopped hf
    have hcs : cs = [] := List.length_eq_zero.mp (Nat.le_zero.mp hf)
    subst hcs
    exact ⟨0, le_refl 0, by simp [consolidateFuel, recycleOf], Or.inl rfl,
      fun j h1 h2 => absurd (lt_of_lt_of_le h1 h2) (by simp)⟩
  | succ fuel ih =>
    intro cs rec stopped hf
    rcases cs.eq_nil_or_concat with rfl | ⟨L, b, rfl⟩
    · exact ⟨0, le_refl 0, by simp [consolidateFuel, recycleOf], Or.inl rfl,
        fun j h1 h2 => absurd (lt_of_lt_of_le h1 h2) (by simp)⟩
    · rw [List.concat_eq_append] at hf ⊢
      have hlast : (L ++ [b]).getLast? = some b := List.getLast?_concat L
      have hlen : (L ++ [b]).length = L.length + 1 := by simp
      by_cases hcond : totalTopics (L ++ [b]) ≤ ((L ++ [b]).length - 1) * LIMIT
      · have hu : consolidateFuel LIMIT (fuel + 1) (L ++ [b]) rec stopped =
            consolidateFuel LIMIT fuel L (rec ++ topicList b.topics) (stopped ++ [b]) := by
          have hdl : (L ++ [b]).dropLast = L := List.dropLast_concat
          simp only [consolidateFuel, hlast]
          rw [if_pos hcond, hdl]
        have hLf : L.length ≤ fuel := by
          rw [hlen] at hf
          omega
        obtain ⟨k, hk, heq, hexit, hmid⟩ := ih L (rec ++ topicList b.topics) (stopped ++ [b]) hLf
        refine ⟨k, by omega, ?_, ?_, ?_⟩
        · rw [hu, heq]
          have ht : (L ++ [b]).take k = L.take k := List.take_append_of_le_length hk
          have hd : (L ++ [b]).drop k = L.drop k ++ [b] := List.drop_append_of_le_length hk
          rw [ht, hd, recycleOf_concat]
          have hrev : (L.drop k ++ [b]).reverse = b :: (L.drop k).reverse := by simp
          rw [hrev]
          simp [List.append_assoc]
        · rwa [List.take_append_of_le_length hk]
        · intro j h1 h2
          rcases Nat.lt_or_ge j (L.length + 1) with hj | hj
          · have hjL : j ≤ L.length := by omega
            rw [List.take_append_of_le_length hjL]
            exact hmid j h1 hjL
          · have hjeq : j = L.length + 1 := by omega
            subst hjeq
            rw [List.take_of_length_le (by simp)]
            simpa using hcond
      · refine ⟨(L ++ [b]).length, le_refl _, ?_, ?_, ?_⟩
        · have hu : consolidateFuel LIMIT (fuel + 1) (L ++ [b]) rec stopped =
              (L ++ [b], rec, stopped) := by
            simp only [consolidateFuel, hlast]
            rw [if_neg hcond]
          rw [hu, List.take_length, List.drop_length]
          simp [recycleOf]
        · rw [List.take_length]
          exact Or.inr (by omega)
        · intro j h1 h2
          omega

/-! ## Preservation of the pool invariants by each operation -/

/-- One `add_topics` call preserves pool-wide topic disjointness. -/
theorem add_preserves_disjoint (LIMIT MAXC : ℕ) (p : Pool) (ts : List Topic)
    (h : pairwiseDisjoint p.websockets) :
    pairwiseDisjoint (add_topics LIMIT MAXC p ts).1.websockets := by
  unfold add_topics
  by_cases he : (dedupTopics p.websockets ts).isEmpty
  · simpa [he] using h
  · simp only [he, Bool.false_eq_true, if_false]
    exact (addLoop_disjoint LIMIT MAXC p.websockets (dedupTopics p.websockets ts)
      (dedupTopics_nodup p.websockets ts) (dedupTopics_fresh p.websockets ts) h).1

/-- One `add_topics` call preserves the per-connection capacity bound. -/
theorem add_preserves_cap (LIMIT MAXC : ℕ) (p : Pool) (ts : List Topic)
    (h : ∀ c ∈ p.websockets, c.topics.card ≤ LIMIT) :
    ∀ c ∈ (add_topics LIMIT MAXC p ts).1.websockets, c.topics.card ≤ LIMIT := by
  unfold add_topics
  by_cases he : (dedupTopics p.websockets ts).isEmpty
  · simpa [he] using h
  · simp only [he, Bool.false_eq_true, if_false]
    exact addLoop_cap LIMIT MAXC p.websockets (dedupTopics p.websockets ts) h

/-- One `remove_topics` call preserves pool-wide topic disjointness. -/
theorem remove_preserves_disjoint (LIMIT : ℕ) (p : Pool) (ks : Finset Topic)
    (h : pairwiseDisjoint p.websockets) :
    pairwiseDisjoint (remove_topics LIMIT p ks).pool.websockets := by
  have h1 : pairwiseDisjoint (removePhase ks p.websockets).1 :=
    pairwise_of_forall₂ (removePhase_forall₂ p.websockets ks) h
  exact List.Pairwise.sublist
    (consolidateFuel_sublist LIMIT (removePhase ks p.websockets).1.length
      (removePhase ks p.websockets).1 [] []) h1

/-- One `remove_topics` call preserves the per-connection capacity bound. -/
theorem remove_preserves_cap (LIMIT : ℕ) (p : Pool) (ks : Finset Topic)
    (h : ∀ c ∈ p.websockets, c.topics.card ≤ LIMIT) :
    ∀ c ∈ (remove_topics LIMIT p ks).pool.websockets, c.topics.card ≤ LIMIT := by
  have h1 : ∀ c ∈ (removePhase ks p.websockets).1, c.topics.card ≤ LIMIT :=
    forall₂_card_le LIMIT (removePhase_forall₂ p.websockets ks) h
  intro c hc
  exact h1 c ((consolidateFuel_sublist LIMIT (removePhase ks p.websockets).1.length
    (removePhase ks p.websockets).1 [] []).subset hc)

/-- The spawned-readd recording of `remove_topics`, restated with a
propositional emptiness test. -/
theorem remove_topics_respawn (LIMIT : ℕ) (p : Pool) (ks : Finset Topic) :
    (remove_topics LIMIT p ks).respawn =
      (if (remove_topics LIMIT p ks).recycled = [] then none
       else some (remove_topics LIMIT p ks).recycled) := by
  show (if (remove_topics LIMIT p ks).recycled.isEmpty then none
        else some (remove_topics LIMIT p ks).recycled) = _
  cases h : (remove_topics LIMIT p ks).recycled with
  | nil => simp
  | cons a l => simp

/-! ## The claims about the pool -/

/-- Claim C2: pool-wide uniqueness invariant — in every pool state
reachable by any sequence of `add_topics` and `remove_topics` calls, no
topic string key appears in more than one connection's subscription map:
the key sets of the topic maps of any two distinct connections in the
pool are disjoint. -/
theorem reachable_pairwise_disjoint (LIMIT MAXC : ℕ) (p : Pool)
    (h : Reachable LIMIT MAXC p) : pairwiseDisjoint p.websockets := by
  induction h with
  | init running => exact List.Pairwise.nil
  | add ts _ ih => exact add_preserves_disjoint LIMIT MAXC _ ts ih
  | remove ks _ ih => exact remove_preserves_disjoint LIMIT _ ks ih

/-- Concrete instance of the pool-wide uniqueness invariant at a
reachable state. -/
theorem reachable_pairwise_disjoint_witness :
    Reachable 2 2 (add_topics 2 2 ⟨[], true⟩ ["a", "b", "c"]).1 ∧
    pairwiseDisjoint (add_topics 2 2 ⟨[], true⟩ ["a", "b", "c"]).1.websockets :=
  ⟨Reachable.add ["a", "b", "c"] (Reachable.init true),
   reachable_pairwise_disjoint 2 2 _ (Reachable.add ["a", "b", "c"] (Reachable.init true))⟩

/-- Claim C5: per-connection capacity invariant — in every pool state
reachable by any sequence of `add_topics` and `remove_topics` calls,
every connection's topic map holds at most `LIMIT` (`WS_TOPICS_LIMIT`)
entries. -/
theorem reachable_card_le (LIMIT MAXC : ℕ) (p : Pool)
    (h : Reachable LIMIT MAXC p) :
    ∀ c ∈ p.websockets, c.topics.card ≤ LIMIT := by
  induction h with
  | init running => intro c hc; exact absurd hc (by simp)
  | add ts _ ih => exact add_preserves_cap LIMIT MAXC _ ts ih
  | remove ks _ ih => exact remove_preserves_cap LIMIT _ ks ih

/-- Concrete instance of the per-connection capacity invariant at a
reachable state. -/
theorem reachable_card_le_witness :
    Reachable 2 2 (add_topics 2 2 ⟨[], true⟩ ["a", "b", "c"]).1 ∧
    ∀ c ∈ (add_topics 2 2 ⟨[], true⟩ ["a", "b", "c"]).1.websockets,
      c.topics.card ≤ 2 :=
  ⟨Reachable.add ["a", "b", "c"] (Reachable.init true),
   reachable_card_le 2 2 _ (Reachable.add ["a", "b", "c"] (Reachable.init true))⟩

/-- Claim C4: idempotence of `add_topics` — when every requested topic is
already held by some connection of the pool, the call leaves every
connection's topic map, submitted set and topics-changed flag unchanged
(the whole pool state is returned untouched, so no sync is triggered)
and returns successfully (no leftover topics). -/
theorem add_topics_idempotent (LIMIT MAXC : ℕ) (p : Pool) (ts : List Topic)
    (h : ∀ t ∈ ts, ∃ c ∈ p.websockets, t ∈ c.topics) :
    add_topics LIMIT MAXC p ts = (p, []) := by
  have hnil : dedupTopics p.websockets ts = [] := by
    apply List.filter_eq_nil_iff.mpr
    intro t ht hcontra
    obtain ⟨c, hc, htc⟩ := h t (List.mem_dedup.mp ht)
    simp only [Bool.not_eq_true', List.any_eq_false, decide_eq_false_iff_not] at hcontra
    exact hcontra c hc (by simpa using htc)
  unfold add_topics
  rw [hnil]
  rfl

/-- Concrete instance of `add_topics` idempotence. -/
theorem add_topics_idempotent_witness :
    (∀ t ∈ (["a"] : List Topic),
      ∃ c ∈ (Pool.mk [⟨{"a"}, ∅, false⟩] true).websockets, t ∈ c.topics) ∧
    add_topics 2 2 (Pool.mk [⟨{"a"}, ∅, false⟩] true) ["a"]
      = (Pool.mk [⟨{"a"}, ∅, false⟩] true, []) :=
  ⟨by decide, add_topics_idempotent 2 2 (Pool.mk [⟨{"a"}, ∅, false⟩] true) ["a"] (by decide)⟩

/-- Claim C1: capacity of `add_topics` on a pool holding no topics, with
`n` distinct topic keys: if `n ≤ MAXC * LIMIT` the call returns
successfully (no `CapacityExceeded`); if `n = MAXC * LIMIT` exactly
(e.g. 400 with `LIMIT = 50`, `MAXC = 8`) every one of the `MAXC`
connections ends holding exactly `LIMIT` topics; if `n > MAXC * LIMIT`
(e.g. 401) the call fails with the `CapacityExceeded` error
(`MinerException "Maximum topics limit has been reached"`, i.e. a
non-empty leftover). -/
theorem add_topics_capacity (LIMIT MAXC : ℕ) (p : Pool) (ts : List Topic)
    (hnd : ts.Nodup) (hempty : ∀ c ∈ p.websockets, c.topics = ∅)
    (hlen : p.websockets.length ≤ MAXC) :
    (ts.length ≤ MAXC * LIMIT → (add_topics LIMIT MAXC p ts).2 = []) ∧
    (ts.length = MAXC * LIMIT → 0 < LIMIT →
      (add_topics LIMIT MAXC p ts).1.websockets.length = MAXC ∧
      ∀ c ∈ (add_topics LIMIT MAXC p ts).1.websockets, c.topics.card = LIMIT) ∧
    (MAXC * LIMIT < ts.length → (add_topics LIMIT MAXC p ts).2 ≠ []) := by
  have hded : dedupTopics p.websockets ts = ts := by
    unfold dedupTopics
    rw [List.dedup_eq_self.mpr hnd]
    apply List.filter_eq_self.mpr
    intro t _
    simp only [Bool.not_eq_true', List.any_eq_false, decide_eq_false_iff_not]
    intro c hc
    rw [hempty c hc]
    simp
  cases hts : ts with
  | nil =>
    have hadd : add_topics LIMIT MAXC p [] = (p, []) := by
      unfold add_topics
      rw [show dedupTopics p.websockets [] = [] from hts ▸ hded]
      rfl
    rw [hadd]
    refine ⟨fun _ => rfl, ?_, fun hgt => absurd hgt (by simp)⟩
    intro hlen0 hpos
    have h00 : MAXC * LIMIT = 0 := by simpa using hlen0.symm
    have hm0 : MAXC = 0 := by
      rcases Nat.mul_eq_zero.mp h00 with h | h
      · exact h
      · omega
    subst hm0
    have : p.websockets.length = 0 := Nat.le_zero.mp hlen
    refine ⟨this, ?_⟩
    intro c hc
    exact absurd hc (by rw [List.length_eq_zero.mp this]; simp)
  | cons a l =>
    rw [← hts]
    have hne : ts ≠ [] := by rw [hts]; simp
    have hie : ts.isEmpty = false := by rw [hts]; rfl
    have hu : add_topics LIMIT MAXC p ts =
        ({ p with websockets := (addLoop LIMIT MAXC p.websockets ts).1 },
         (addLoop LIMIT MAXC p.websockets ts).2) := by
      unfold add_topics
      rw [hded]
      simp only [hie, Bool.false_eq_true, if_false]
    obtain ⟨hL, hB⟩ := addLoop_allEmpty LIMIT MAXC p.websockets ts hnd hempty hlen hne
    rw [hu]
    refine ⟨?_, ?_, ?_⟩
    · intro hle
      show (addLoop LIMIT MAXC p.websockets ts).2 = []
      apply List.length_eq_zero.mp
      omega
    · intro hlen0 hpos
      show (addLoop LIMIT MAXC p.websockets ts).1.length = MAXC ∧
        ∀ c ∈ (addLoop LIMIT MAXC p.websockets ts).1, c.topics.card = LIMIT
      exact hB (by omega) hpos
    · intro hgt hnil
      have hnil' : (addLoop LIMIT MAXC p.websockets ts).2 = [] := hnil
      rw [hnil'] at hL
      simp at hL
      omega

/-- Concrete capacity instance (reference shape scaled down to
`LIMIT = 2`, `MAXC = 2`): exactly `4 = 2 * 2` distinct topics succeed and
fill both connections to exactly 2 topics each. -/
theorem add_topics_capacity_witness :
    (["a", "b", "c", "d"] : List Topic).Nodup ∧
    (add_topics 2 2 ⟨[], true⟩ ["a", "b", "c", "d"]).2 = [] ∧
    (add_topics 2 2 ⟨[], true⟩ ["a", "b", "c", "d"]).1.websockets.length = 2 ∧
    ∀ c ∈ (add_topics 2 2 ⟨[], true⟩ ["a", "b", "c", "d"]).1.websockets,
      c.topics.card = 2 := by
  have h := add_topics_capacity 2 2 ⟨[], true⟩ ["a", "b", "c", "d"]
    (by decide) (by decide) (by decide)
  exact ⟨by decide, h.1 (by decide), (h.2.1 (by decide) (by decide)).1,
    (h.2.1 (by decide) (by decide)).2⟩

/-- Claim C3: consolidation in `remove_topics` is a pure tail trim —
after the deletion phase (`removePhase`), the loop keeps exactly a front
segment of the post-deletion connection list (each surviving connection
untouched, so topics are never reshuffled among the connections that
remain and only the last connection is ever evaluated for removal), the
dropped tail connections are handed to detached stop tasks in pop order
and their topics collected as the recycled list, the loop condition has
failed at the final list while it held at every intermediate length, and
the recycled topics (if any) are re-submitted via a detached
`add_topics` call. -/
theorem remove_topics_tail_trim (LIMIT : ℕ) (p : Pool) (ks : Finset Topic) :
    ∃ k, k ≤ (removePhase ks p.websockets).1.length ∧
      (remove_topics LIMIT p ks).pool.websockets
        = ((removePhase ks p.websockets).1).take k ∧
      (remove_topics LIMIT p ks).recycled
        = recycleOf (((removePhase ks p.websockets).1).drop k) ∧
      (remove_topics LIMIT p ks).stopped
        = (((removePhase ks p.websockets).1).drop k).reverse ∧
      (remove_topics LIMIT p ks).respawn
        = (if (remove_topics LIMIT p ks).recycled = [] then none
           else some (remove_topics LIMIT p ks).recycled) ∧
      (((removePhase ks p.websockets).1).take k = [] ∨
        (k - 1) * LIMIT < totalTopics (((removePhase ks p.websockets).1).take k)) ∧
      (∀ j, k < j → j ≤ (removePhase ks p.websockets).1.length →
        totalTopics (((removePhase ks p.websockets).1).take j) ≤ (j - 1) * LIMIT) := by
  obtain ⟨k, hk, heq, hexit, hmid⟩ :=
    consolidateFuel_spec LIMIT (removePhase ks p.websockets).1.length
      (removePhase ks p.websockets).1 [] [] (le_refl _)
  refine ⟨k, hk, ?_, ?_, ?_, remove_topics_respawn LIMIT p ks, hexit, hmid⟩
  · show (consolidateFuel LIMIT (removePhase ks p.websockets).1.length
      (removePhase ks p.websockets).1 [] []).1 = _
    rw [heq]
  · show (consolidateFuel LIMIT (removePhase ks p.websockets).1.length
      (removePhase ks p.websockets).1 [] []).2.1 = _
    rw [heq]
    simp
  · show (consolidateFuel LIMIT (removePhase ks p.websockets).1.length
      (removePhase ks p.websockets).1 [] []).2.2 = _
    rw [heq]
    simp

/-- Claim C10: when a `remove_topics` call removes every topic held by
the pool (every connection's topic map becomes empty after the deletion
phase), the consolidation loop pops every connection — since
`0 ≤ (k - 1) * LIMIT` holds for every connection count `k ≥ 1` — leaving
the pool's connection list empty; each popped connection is handed to a
detached stop task, and no redistribution `add_topics` task is spawned
because the recycled list is empty. -/
theorem remove_topics_drains (LIMIT : ℕ) (p : Pool) (ks : Finset Topic)
    (h : ∀ c ∈ (removePhase ks p.websockets).1, c.topics = ∅) :
    (remove_topics LIMIT p ks).pool.websockets = [] ∧
    (remove_topics LIMIT p ks).recycled = [] ∧
    (remove_topics LIMIT p ks).respawn = none ∧
    (remove_topics LIMIT p ks).stopped = ((removePhase ks p.websockets).1).reverse := by
  obtain ⟨k, hk, heq, hexit, _⟩ :=
    consolidateFuel_spec LIMIT (removePhase ks p.websockets).1.length
      (removePhase ks p.websockets).1 [] [] (le_refl _)
  have htake0 : totalTopics (((removePhase ks p.websockets).1).take k) = 0 := by
    apply List.sum_eq_zero
    intro x hx
    rw [List.mem_map] at hx
    obtain ⟨c, hc, rfl⟩ := hx
    rw [h c (List.take_subset k _ hc)]
    simp
  have htk : ((removePhase ks p.websockets).1).take k = [] := by
    rcases hexit with h' | h'
    · exact h'
    · rw [htake0] at h'
      exact absurd h' (Nat.not_lt_zero _)
  have hdk : ((removePhase ks p.websockets).1).drop k = (removePhase ks p.websockets).1 := by
    rcases List.take_eq_nil_iff.mp htk with h' | h'
    · rw [h']; simp
    · rw [h']; simp
  have hrec0 : recycleOf ((removePhase ks p.websockets).1) = [] := by
    apply List.flatten_eq_nil_iff.mpr
    intro l hl
    rw [List.mem_map] at hl
    obtain ⟨c, hc, rfl⟩ := hl
    rw [h c (by simpa using hc)]
    simp [topicList]
  refine ⟨?_, ?_, ?_, ?_⟩
  · show (consolidateFuel LIMIT (removePhase ks p.websockets).1.length
      (removePhase ks p.websockets).1 [] []).1 = []
    rw [heq]
    simpa using htk
  · show (consolidateFuel LIMIT (removePhase ks p.websockets).1.length
      (removePhase ks p.websockets).1 [] []).2.1 = []
    rw [heq, hdk]
    simpa using hrec0
  · show (if (consolidateFuel LIMIT (removePhase ks p.websockets).1.length
      (removePhase ks p.websockets).1 [] []).2.1.isEmpty then none
        else some (consolidateFuel LIMIT (removePhase ks p.websockets).1.length
          (removePhase ks p.websockets).1 [] []).2.1) = none
    rw [heq, hdk]
    simp [hrec0]
  · show (consolidateFuel LIMIT (removePhase ks p.websockets).1.length
      (removePhase ks p.websockets).1 [] []).2.2 = _
    rw [heq, hdk]
    simp

/-- Concrete instance of the drain behaviour: removing the only topic of
a one-connection pool empties the pool with nothing recycled. -/
theorem remove_topics_drains_witness :
    (∀ c ∈ (removePhase {"a"} (Pool.mk [⟨{"a"}, ∅, false⟩] true).websockets).1,
      c.topics = ∅) ∧
    (remove_topics 2 (Pool.mk [⟨{"a"}, ∅, false⟩] true) {"a"}).pool.websockets = [] ∧
    (remove_topics 2 (Pool.mk [⟨{"a"}, ∅, false⟩] true) {"a"}).recycled = [] ∧
    (remove_topics 2 (Pool.mk [⟨{"a"}, ∅, false⟩] true) {"a"}).respawn = none :=
  ⟨by decide,
   (remove_topics_drains 2 (Pool.mk [⟨{"a"}, ∅, false⟩] true) {"a"} (by decide)).1,
   (remove_topics_drains 2 (Pool.mk [⟨{"a"}, ∅, false⟩] true) {"a"} (by decide)).2.1,
   (remove_topics_drains 2 (Pool.mk [⟨{"a"}, ∅, false⟩] true) {"a"} (by decide)).2.2.1⟩

/-! ## The claims about the per-connection handler -/

/-- Claim C6: keepalive step — on each `_handle_ping` invocation at time
`now`: if `now` has reached the scheduled next-ping time, a PING control
message is sent, the next ping is scheduled `PI` (`PING_INTERVAL`) ahead
and the pong deadline is set `PT` (`PING_TIMEOUT`) ahead of `now`;
otherwise, if `now` has already reached the pong deadline without a PONG
having pushed it back, a reconnect is requested; otherwise nothing
happens.  And on every exit of the inner loop of `_handle`, the shared
live-transport slot is cleared (`innerLoopExit`) before a new transport
is published (`outerIteration` publishes into the cleared state). -/
theorem handle_ping_keepalive (PI PT now : ℤ) (s : ConnState) (w : ℕ) :
    (s.nextPing ≤ now →
      handle_ping PI PT now s =
        ({ s with nextPing := now + PI, maxPong := now + PT }, some PreMsg.ping)) ∧
    (now < s.nextPing → s.maxPong ≤ now →
      handle_ping PI PT now s = (request_reconnect now s, none) ∧
      (request_reconnect now s).reconnectRequested = true) ∧
    (now < s.nextPing → now < s.maxPong → handle_ping PI PT now s = (s, none)) ∧
    ((innerLoopExit s).ws = none ∧ (outerIteration w s).ws = some w) := by
  refine ⟨?_, ?_, ?_, rfl, rfl⟩
  · intro h
    simp [handle_ping, h]
  · intro h1 h2
    refine ⟨?_, rfl⟩
    simp [handle_ping, not_le.mpr h1, h2]
  · intro h1 h2
    simp [handle_ping, not_le.mpr h1, not_le.mpr h2]

/-- Concrete keepalive instance: with the next ping due, a PING goes out
and both timestamps are rescheduled. -/
theorem handle_ping_keepalive_witness :
    ((⟨∅, ∅, false, false, false, 0, 10, none⟩ : ConnState).nextPing ≤ 5) ∧
    handle_ping 60 10 5 ⟨∅, ∅, false, false, false, 0, 10, none⟩
      = ({ (⟨∅, ∅, false, false, false, 0, 10, none⟩ : ConnState) with
            nextPing := 5 + 60, maxPong := 5 + 10 }, some PreMsg.ping) :=
  ⟨by decide, (handle_ping_keepalive 60 10 5 ⟨∅, ∅, false, false, false, 0, 10, none⟩ 0).1
    (by decide)⟩

/-- The sync step with the flag set but submitted already equal to the
current topic set sends no message at all — in particular no UNLISTEN
and no LISTEN message is sent, contradicting the claim's unconditional
"sends one UNLISTEN message … then one LISTEN message". -/
theorem handle_topics_counterexample :
    (⟨{"a"}, {"a"}, true, false, false, 0, 0, none⟩ : ConnState).topicsChanged = true ∧
    (handle_topics "token" 0 1 ⟨{"a"}, {"a"}, true, false, false, 0, 0, none⟩).2 = [] := by
  constructor
  · rfl
  · decide

/-- Claim C7 (amended): topic sync step — when the topics-changed flag is
set, the handler clears the flag, sends one UNLISTEN message whose topic
list is exactly `submitted \ current` when that difference is non-empty
(no UNLISTEN otherwise), then one LISTEN message whose topic list is
exactly `current \ submitted` when that difference is non-empty (no
LISTEN otherwise), each sent message tagged with the fresh nonce drawn
for it and the current bearer credential, and afterwards the submitted
set equals the current topic set; when the flag is not set, nothing is
sent and no state changes. -/
theorem handle_topics_sync (auth : String) (n1 n2 : ℕ) (s : ConnState) :
    (s.topicsChanged = false → handle_topics auth n1 n2 s = (s, [])) ∧
    (s.topicsChanged = true →
      (handle_topics auth n1 n2 s).1.topicsChanged = false ∧
      (handle_topics auth n1 n2 s).1.topics = s.topics ∧
      (handle_topics auth n1 n2 s).1.submitted = s.topics ∧
      (handle_topics auth n1 n2 s).2 =
        (if s.submitted \ s.topics = ∅ then []
         else [OutMsg.unlisten (s.submitted \ s.topics) n1 auth]) ++
        (if s.topics \ s.submitted = ∅ then []
         else [OutMsg.listen (s.topics \ s.submitted) n2 auth])) := by
  constructor
  · intro hc
    simp [handle_topics, hc]
  · intro hc
    have hadd : s.topics \ (s.submitted \ (s.submitted \ s.topics)) = s.topics \ s.submitted := by
      ext x
      simp only [Finset.mem_sdiff]
      tauto
    by_cases h1 : s.submitted \ s.topics = ∅
    · have h1' : ∀ x ∈ s.submitted, x ∈ s.topics := by
        intro x hx
        by_contra hnx
        exact absurd (Finset.mem_sdiff.mpr ⟨hx, hnx⟩) (by rw [h1]; simp)
      by_cases h2 : s.topics \ s.submitted = ∅
      · have h2' : ∀ x ∈ s.topics, x ∈ s.submitted := by
          intro x hx
          by_contra hnx
          exact absurd (Finset.mem_sdiff.mpr ⟨hx, hnx⟩) (by rw [h2]; simp)
        have hsub : s.submitted = s.topics := by
          ext x
          exact ⟨fun hx => h1' x hx, fun hx => h2' x hx⟩
        simp [handle_topics, send, hc, h1, h2, hsub]
      · have hfin : s.submitted ∪ (s.topics \ s.submitted) = s.topics := by
          ext x
          simp only [Finset.mem_union, Finset.mem_sdiff]
          constructor
          · rintro (hx | ⟨hx, _⟩)
            · exact h1' x hx
            · exact hx
          · intro hx
            by_cases hxs : x ∈ s.submitted
            · exact Or.inl hxs
            · exact Or.inr ⟨hx, hxs⟩
        simp [handle_topics, send, hc, h1, h2, hfin]
    · by_cases h2 : s.topics \ s.submitted = ∅
      · have h2' : ∀ x ∈ s.topics, x ∈ s.submitted := by
          intro x hx
          by_contra hnx
          exact absurd (Finset.mem_sdiff.mpr ⟨hx, hnx⟩) (by rw [h2]; simp)
        have hfin : s.submitted ∩ s.topics = s.topics := by
          ext x
          simp only [Finset.mem_inter]
          constructor
          · rintro ⟨_, hx⟩
            exact hx
          · intro hx
            exact ⟨h2' x hx, hx⟩
        simp [handle_topics, send, hc, h1, hadd, h2, hfin]
      · have hfin : s.submitted ∩ s.topics ∪ s.topics \ s.submitted = s.topics := by
          ext x
          simp only [Finset.mem_union, Finset.mem_sdiff, Finset.mem_inter]
          constructor
          · rintro (⟨_, hx⟩ | ⟨hx, _⟩)
            · exact hx
            · exact hx
          · intro hx
            by_cases hxs : x ∈ s.submitted
            · exact Or.inl ⟨hxs, hx⟩
            · exact Or.inr ⟨hx, hxs⟩
        simp [handle_topics, send, hc, h1, hadd, h2, hfin]

/-- Concrete sync instance: with the flag set, the flag clears and the
submitted set becomes the current topic set. -/
theorem handle_topics_sync_witness :
    ((⟨{"b"}, {"a"}, true, false, false, 0, 0, none⟩ : ConnState).topicsChanged = true) ∧
    (handle_topics "tok" 5 6 ⟨{"b"}, {"a"}, true, false, false, 0, 0, none⟩).1.topicsChanged
      = false ∧
    (handle_topics "tok" 5 6 ⟨{"b"}, {"a"}, true, false, false, 0, 0, none⟩).1.submitted
      = (⟨{"b"}, {"a"}, true, false, false, 0, 0, none⟩ : ConnState).topics :=
  ⟨rfl,
   ((handle_topics_sync "tok" 5 6 ⟨{"b"}, {"a"}, true, false, false, 0, 0, none⟩).2 rfl).1,
   ((handle_topics_sync "tok" 5 6 ⟨{"b"}, {"a"}, true, false, false, 0, 0, none⟩).2 rfl).2.2.1⟩

/-- A TEXT frame whose payload is not valid JSON makes `_handle_recv`
raise the decode error instead of ignoring the frame: on line 146 of
websocket.py, `json.loads` runs inside a `try` block whose only handler
catches `asyncio.TimeoutError`, so the `json.JSONDecodeError` propagates
out of the handler. -/
theorem handle_recv_counterexample :
    handle_recv loadsFail 0 ⟨∅, ∅, false, false, false, 0, 0, none⟩ (Frame.text "not json")
      = .error RecvErr.decodeError := rfl

/-- Claim C8 (amended): inbound frames that decode to a JSON object whose
type is none of MESSAGE, PONG, RECONNECT are ignored — the receive
handler completes without raising and without changing connection state —
and a receive timeout likewise completes normally and is not treated as
an error; but a text frame whose payload fails to decode as JSON raises
the decode error out of the handler instead of being ignored. -/
theorem handle_recv_malformed (loads : String → Option Json) (now : ℤ)
    (s : ConnState) (raw : String) (fields : List (String × Json)) :
    (handle_recv loads now s Frame.timeout = .ok (s, [])) ∧
    (loads raw = none →
      handle_recv loads now s (Frame.text raw) = .error RecvErr.decodeError) ∧
    (loads raw = some (Json.obj fields) →
      lookupField fields "type" ≠ some (Json.str "MESSAGE") →
      lookupField fields "type" ≠ some (Json.str "PONG") →
      lookupField fields "type" ≠ some (Json.str "RECONNECT") →
      handle_recv loads now s (Frame.text raw) = .ok (s, [])) := by
  refine ⟨rfl, ?_, ?_⟩
  · intro hl
    simp [handle_recv, hl]
  · intro hl hm hp hr
    simp only [handle_recv]
    rw [hl]
    cases hty : lookupField fields "type" with
    | none => simp [hty]
    | some v =>
      cases v with
      | obj f2 => simp [hty]
      | other => simp [hty]
      | str t =>
        have hm' : ¬(t = "MESSAGE") := fun h => hm (by rw [hty, h])
        have hp' : ¬(t = "PONG") := fun h => hp (by rw [hty, h])
        have hr' : ¬(t = "RECONNECT") := fun h => hr (by rw [hty, h])
        simp [hty, hm', hp', hr']

/-- Concrete instance: an object frame with an unrecognised type is
ignored without any state change. -/
theorem handle_recv_malformed_witness :
    ((fun _ => some (Json.obj [("type", Json.str "HELLO")]) : String → Option Json) "x"
        = some (Json.obj [("type", Json.str "HELLO")])) ∧
    handle_recv (fun _ => some (Json.obj [("type", Json.str "HELLO")])) 0
        ⟨∅, ∅, false, false, false, 0, 0, none⟩ (Frame.text "x")
      = .ok (⟨∅, ∅, false, false, false, 0, 0, none⟩, []) :=
  ⟨rfl,
   (handle_recv_malformed (fun _ => some (Json.obj [("type", Json.str "HELLO")])) 0
      ⟨∅, ∅, false, false, false, 0, 0, none⟩ "x" [("type", Json.str "HELLO")]).2.2 rfl
     (by simp [lookupField]) (by simp [lookupField]) (by simp [lookupField])⟩

/-- Claim C9: reconnect preserves subscriptions — requesting a reconnect
(via `request_reconnect`, or the server-initiated RECONNECT frame path of
`_handle_recv`) and the subsequent inner-loop exit leave the connection's
topic map identical to what it was immediately before, while the
submitted set is reset to empty and the topics-changed flag is set upon
publication of the new transport, so the full topic set is resynced. -/
theorem reconnect_preserves_topics (now : ℤ) (w : ℕ) (s : ConnState)
    (loads : String → Option Json) (raw : String) :
    (request_reconnect now s).topics = s.topics ∧
    (innerLoopExit (request_reconnect now s)).topics = s.topics ∧
    (innerLoopExit (request_reconnect now s)).submitted = ∅ ∧
    (outerIteration w (request_reconnect now s)).topics = s.topics ∧
    (outerIteration w (request_reconnect now s)).submitted = ∅ ∧
    (outerIteration w (request_reconnect now s)).topicsChanged = true ∧
    (loads raw = some (Json.obj [("type", Json.str "RECONNECT")]) →
      handle_recv loads now s (Frame.text raw)
        = .ok (request_reconnect now s, [])) := by
  refine ⟨rfl, rfl, rfl, rfl, rfl, rfl, ?_⟩
  intro hl
  simp only [handle_recv]
  rw [hl]
  simp [lookupField]

/-- Concrete instance of a reconnect cycle triggered by a server
RECONNECT frame: same topics, submitted emptied, flag raised. -/
theorem reconnect_preserves_topics_witness :
    ((fun _ => some (Json.obj [("type", Json.str "RECONNECT")]) : String → Option Json) "x"
        = some (Json.obj [("type", Json.str "RECONNECT")])) ∧
    handle_recv (fun _ => some (Json.obj [("type", Json.str "RECONNECT")])) 0
        ⟨{"a"}, {"a"}, false, false, false, 3, 4, none⟩ (Frame.text "x")
      = .ok (request_reconnect 0 ⟨{"a"}, {"a"}, false, false, false, 3, 4, none⟩, []) :=
  ⟨rfl,
   (reconnect_preserves_topics 0 0 ⟨{"a"}, {"a"}, false, false, false, 3, 4, none⟩
      (fun _ => some (Json.obj [("type", Json.str "RECONNECT")])) "x").2.2.2.2.2.2 rfl⟩
